import Mathlib

/-!
Shallow embedding of `satlas2/plotting.py` and verification of its
specification claims.  Pure numeric code is translated over `ℚ` (exact
rationals standing for the floats) or `ℝ` where the source uses
transcendental functions; external collaborators (the fitting engine, the
scipy root finder, the chi-square CDF) are abstracted as function
parameters with their contracts stated as hypotheses.
-/

/-- Python exception kinds raised by the modelled code paths. -/
inductive PyError where
  | typeError
  | nameError
  | valueError
  | zeroDivisionError
deriving DecidableEq, Repr

/-- Minimum of a list, `np.min`: meaningful for nonempty lists. -/
def listMin {α : Type} [LinearOrder α] [Inhabited α] (l : List α) : α :=
  l.foldr min l.headI

/-- Maximum of a list, `np.max`: meaningful for nonempty lists. -/
def listMax {α : Type} [LinearOrder α] [Inhabited α] (l : List α) : α :=
  l.foldr max l.headI

theorem foldr_min_le {α : Type} [LinearOrder α] (init : α) (l : List α) :
    ∀ x ∈ l, l.foldr min init ≤ x := by
  induction l with
  | nil => intro x hx; cases hx
  | cons a t ih =>
    intro x hx
    rcases List.mem_cons.mp hx with h | h
    · subst h; exact min_le_left _ _
    · exact le_trans (min_le_right _ _) (ih x h)

theorem le_foldr_max {α : Type} [LinearOrder α] (init : α) (l : List α) :
    ∀ x ∈ l, x ≤ l.foldr max init := by
  induction l with
  | nil => intro x hx; cases hx
  | cons a t ih =>
    intro x hx
    rcases List.mem_cons.mp hx with h | h
    · subst h; exact le_max_left _ _
    · exact le_trans (ih x h) (le_max_right _ _)

theorem listMin_le {α : Type} [LinearOrder α] [Inhabited α] (l : List α) :
    ∀ x ∈ l, listMin l ≤ x :=
  foldr_min_le _ l

theorem le_listMax {α : Type} [LinearOrder α] [Inhabited α] (l : List α) :
    ∀ x ∈ l, x ≤ listMax l :=
  le_foldr_max _ l

/-! ### Grid layout builder (`_make_axes_grid`, lines 29-123) -/

/-- Plot-region handle created by `_make_axes_grid`: records the grid
position `(row, col)` the axes object was stored at. -/
structure GridAxis where
  row : ℕ
  col : ℕ
deriving DecidableEq, Repr

/-- The `n × n` matrix of plot regions built by `_make_axes_grid`
(lines 70-101): entry `(i, j)` is created exactly when `I + j < n`
with `I = n - 1 - i`, and is `None` otherwise. -/
def axesGrid (n : ℕ) : List (List (Option GridAxis)) :=
  (List.range n).map fun i =>
    (List.range n).map fun j =>
      if n - 1 - i + j < n then some ⟨i, j⟩ else none

/-- The colorbar region of `_make_axes_grid` (lines 117-122): an axes
object when `cbar` is requested, `None` otherwise. -/
def cbarRegion (cbar : Bool) : Option Unit :=
  if cbar then some () else none

/-- Number of non-null plot regions in a grid. -/
def countRegions (g : List (List (Option GridAxis))) : ℕ :=
  (g.map fun row => (row.filter Option.isSome).length).sum

theorem axesGrid_row_count (n i : ℕ) (hi : i < n) :
    (((List.range n).map fun j =>
        if n - 1 - i + j < n then some (⟨i, j⟩ : GridAxis) else none).filter
      Option.isSome).length = i + 1 := by
  rw [← List.countP_eq_length_filter, List.countP_map]
  have hpred : ∀ j ∈ List.range n,
      (((fun o => Option.isSome o) ∘ fun j =>
        if n - 1 - i + j < n then some (⟨i, j⟩ : GridAxis) else none) j = true ↔
      decide (j ≤ i) = true) := by
    intro j _
    by_cases h : j ≤ i
    · have hc : n - 1 - i + j < n := by omega
      simp [hc, h]
    · have hc : ¬ (n - 1 - i + j < n) := by omega
      simp [hc, h]
  rw [List.countP_congr hpred]
  have hsplit : n = (i + 1) + (n - i - 1) := by omega
  rw [hsplit, List.range_add, List.countP_append]
  have h1 : (List.range (i + 1)).countP (fun j => decide (j ≤ i)) = i + 1 := by
    rw [List.countP_eq_length.mpr, List.length_range]
    intro j hj
    have hj' : j < i + 1 := List.mem_range.mp hj
    simp; omega
  have h2 : ((List.range (n - i - 1)).map (fun x => (i + 1) + x)).countP
      (fun j => decide (j ≤ i)) = 0 := by
    rw [List.countP_eq_zero]
    intro j hj
    rcases List.mem_map.mp hj with ⟨k, hk, rfl⟩
    simp; omega
  omega

theorem sum_range_succ_ids (n : ℕ) :
    2 * ((List.range n).map (fun i => i + 1)).sum = n * (n + 1) := by
  induction n with
  | zero => simp
  | succ m ih =>
    rw [List.range_succ, List.map_append, List.sum_append]
    simp only [List.map_cons, List.map_nil, List.sum_cons, List.sum_nil]
    have hring : (m + 1) * (m + 1 + 1) = m * (m + 1) + 2 * (m + 1) := by ring
    linarith [ih, hring]

theorem countRegions_axesGrid (n : ℕ) :
    countRegions (axesGrid n) = n * (n + 1) / 2 := by
  have key : 2 * countRegions (axesGrid n) = n * (n + 1) := by
    unfold countRegions axesGrid
    rw [List.map_map]
    have hmap : ((List.range n).map
        ((fun row => (List.filter Option.isSome row).length) ∘ fun i =>
          (List.range n).map fun j =>
            if n - 1 - i + j < n then some (⟨i, j⟩ : GridAxis) else none)) =
        (List.range n).map (fun i => i + 1) := by
      apply List.map_congr_left
      intro i hi
      exact axesGrid_row_count n i (List.mem_range.mp hi)
    rw [hmap]
    exact sum_range_succ_ids n
  omega

theorem axesGrid_entry (n i j : ℕ) (hi : i < n) (hj : j < n) :
    ((axesGrid n).getD i []).getD j none =
      (if j ≤ i then some (⟨i, j⟩ : GridAxis) else none) := by
  have h1 : (axesGrid n).getD i [] = (List.range n).map
      (fun j => if n - 1 - i + j < n then some (⟨i, j⟩ : GridAxis) else none) := by
    unfold axesGrid
    rw [List.getD_eq_getElem?_getD, List.getElem?_map, List.getElem?_range hi]
    rfl
  rw [h1, List.getD_eq_getElem?_getD, List.getElem?_map, List.getElem?_range hj]
  simp only [Option.map_some', Option.getD_some]
  have hiff : (n - 1 - i + j < n) ↔ j ≤ i := by omega
  simp [hiff]

/-- C4: for every parameter count `n ≥ 1`, the grid layout builder produces
exactly `n * (n + 1) / 2` non-null plot regions, precisely those at
positions `(i, j)` with `j ≤ i`, with all above-diagonal entries null;
for `n = 1` it produces a single diagonal region, a colorbar region
exactly when requested, and no off-diagonal regions. -/
theorem grid_layout_regions (n : ℕ) (hn : 1 ≤ n) :
    countRegions (axesGrid n) = n * (n + 1) / 2 ∧
    (∀ i j, i < n → j < n →
      (((axesGrid n).getD i []).getD j none ≠ none ↔ j ≤ i)) ∧
    (n = 1 → axesGrid n = [[some ⟨0, 0⟩]] ∧
      cbarRegion true = some () ∧ cbarRegion false = none) := by
  refine ⟨countRegions_axesGrid n, ?_, ?_⟩
  · intro i j hi hj
    rw [axesGrid_entry n i j hi hj]
    by_cases h : j ≤ i <;> simp [h]
  · intro h1
    subst h1
    refine ⟨?_, rfl, rfl⟩
    decide

/-- Witness for C4 at `n = 3`. -/
theorem grid_layout_regions_witness :
    countRegions (axesGrid 3) = 6 ∧
    (((axesGrid 3).getD 1 []).getD 0 none ≠ none ↔ (0 : ℕ) ≤ 1) := by
  obtain ⟨h1, h2, _⟩ := grid_layout_regions 3 (by decide)
  exact ⟨h1, h2 1 0 (by decide) (by decide)⟩

/-! ### Diagonal sweep of `generateChisquareMap` (lines 207-219) -/

/-- Model of `np.linspace(a, b, num)` with endpoint inclusion: `num`
equally spaced samples, step `(b - a) / (num - 1)`. -/
def linspace (a b : ℚ) (num : ℕ) : List ℚ :=
  if num = 0 then []
  else if num = 1 then [a]
  else (List.range num).map fun k : ℕ => a + (k : ℚ) * ((b - a) / ((num : ℚ) - 1))

/-- First substitution step for the standard error (line 210):
`stderr if stderr is not None else 0.01 * np.abs(value)`. -/
def effStderr1 (value : ℚ) (stderr : Option ℚ) : ℚ :=
  match stderr with
  | none => 0.01 * |value|
  | some s => s

/-- Effective standard error used by the diagonal sweep (lines 209-211):
an absent (`None`) or zero `stderr` is replaced by `0.01 * |value|`. -/
def effStderr (value : ℚ) (stderr : Option ℚ) : ℚ :=
  if effStderr1 value stderr = 0 then 0.01 * |value| else effStderr1 value stderr

/-- Sweep interval bounds stored in `ranges` (lines 213-218):
`left_val = 3 * (value - stderr) - 2 * value` and
`right_val = 3 * (value + stderr) - 2 * value`. -/
def sweepBounds (value stderr : ℚ) : ℚ × ℚ :=
  (3 * (value - stderr) - 2 * value, 3 * (value + stderr) - 2 * value)

/-- The swept values of the diagonal loop (line 219):
`np.linspace(3 * left - 2 * value, right * 3 - 2 * value, resolution_diag)`. -/
def diagValueRange (value stderr : ℚ) (res : ℕ) : List ℚ :=
  linspace (3 * (value - stderr) - 2 * value) ((value + stderr) * 3 - 2 * value) res

theorem linspace_length (a b : ℚ) (num : ℕ) : (linspace a b num).length = num := by
  unfold linspace
  rcases Nat.eq_zero_or_pos num with h0 | h0
  · simp [h0]
  · rcases Nat.lt_or_ge num 2 with h1 | h1
    · have : num = 1 := by omega
      simp [this]
    · have hne0 : num ≠ 0 := by omega
      have hne1 : num ≠ 1 := by omega
      rw [if_neg hne0, if_neg hne1, List.length_map, List.length_range]

theorem linspace_headI (a b : ℚ) (num : ℕ) (h : 2 ≤ num) :
    (linspace a b num).headI = a := by
  unfold linspace
  have hne0 : num ≠ 0 := by omega
  have hne1 : num ≠ 1 := by omega
  simp only [hne0, hne1, if_false]
  obtain ⟨m, rfl⟩ : ∃ m, num = m + 1 := ⟨num - 1, by omega⟩
  rw [List.range_succ_eq_map]
  simp

theorem linspace_getLastI (a b : ℚ) (num : ℕ) (h : 2 ≤ num) :
    (linspace a b num).getLastI = b := by
  unfold linspace
  have hne0 : num ≠ 0 := by omega
  have hne1 : num ≠ 1 := by omega
  simp only [hne0, hne1, if_false]
  obtain ⟨m, rfl⟩ : ∃ m, num = m + 1 := ⟨num - 1, by omega⟩
  rw [List.range_succ, List.map_append]
  simp only [List.map_cons, List.map_nil]
  rw [List.getLastI_eq_getLast?, List.getLast?_concat, Option.iget_some]
  have hm : (m : ℚ) ≠ 0 := Nat.cast_ne_zero.mpr (by omega)
  push_cast
  have hsub : ((m : ℚ) + 1 - 1) = (m : ℚ) := by ring
  rw [hsub, ← mul_div_assoc, mul_div_cancel_left₀ _ hm]
  ring

/-- C5: for every parameter value `v` and effective standard error `s`, the
diagonal sweep evaluates exactly `resolution_diag` points, and the swept
interval bounds equal `v - 3 * s` and `v + 3 * s`, which are also the first
and last swept values whenever at least two points are requested. -/
theorem diag_sweep_points (v s : ℚ) (res : ℕ) :
    (diagValueRange v s res).length = res ∧
    sweepBounds v s = (v - 3 * s, v + 3 * s) ∧
    (2 ≤ res →
      (diagValueRange v s res).headI = v - 3 * s ∧
      (diagValueRange v s res).getLastI = v + 3 * s) := by
  refine ⟨linspace_length _ _ _, ?_, fun h => ⟨?_, ?_⟩⟩
  · simp only [sweepBounds, Prod.mk.injEq]
    constructor <;> ring
  · rw [diagValueRange, linspace_headI _ _ _ h]
    ring
  · rw [diagValueRange, linspace_getLastI _ _ _ h]
    ring

/-- Witness for C5 at `v = 5`, `s = 2`, `res = 4`. -/
theorem diag_sweep_points_witness :
    (diagValueRange 5 2 4).length = 4 ∧
    (diagValueRange 5 2 4).headI = -1 ∧ (diagValueRange 5 2 4).getLastI = 11 := by
  obtain ⟨h1, _, h3⟩ := diag_sweep_points 5 2 4
  obtain ⟨h4, h5⟩ := h3 (by norm_num)
  refine ⟨h1, ?_, ?_⟩
  · rw [h4]; norm_num
  · rw [h5]; norm_num

/-- C6 counterexample: for a parameter whose value is `0` and whose standard
error is absent, the substituted standard error is `0`, and the resulting
sweep interval is the degenerate zero-width interval `[0, 0]`, contradicting
the claim that the substitution always avoids a zero-width interval. -/
theorem stderr_default_zero_width :
    effStderr 0 none = 0 ∧
    (sweepBounds 0 (effStderr 0 none)).1 = (sweepBounds 0 (effStderr 0 none)).2 := by
  constructor
  · simp [effStderr, effStderr1]
  · simp [effStderr, effStderr1, sweepBounds]

/-- C6 (amended): for every varied parameter whose standard error is absent
(`None`) or zero, `generateChisquareMap` substitutes 1% of the absolute
parameter value as the standard error; the resulting sweep interval is
non-degenerate whenever the parameter value is nonzero. -/
theorem stderr_default_substitution (v : ℚ) (s : Option ℚ)
    (hs : s = none ∨ s = some 0) :
    effStderr v s = |v| / 100 ∧
    (v ≠ 0 →
      (sweepBounds v (effStderr v s)).1 < (sweepBounds v (effStderr v s)).2) := by
  have heff : effStderr v s = |v| / 100 := by
    rcases hs with h | h <;> subst h
    · simp only [effStderr, effStderr1]
      split <;> ring
    · simp only [effStderr, effStderr1]
      norm_num
      ring
  refine ⟨heff, fun hv => ?_⟩
  rw [heff]
  unfold sweepBounds
  have : 0 < |v| := abs_pos.mpr hv
  simp only
  linarith

/-- Witness for C6 (amended) at `v = -8`, `s = some 0`. -/
theorem stderr_default_substitution_witness :
    effStderr (-8) (some 0) = 8 / 100 ∧
    (sweepBounds (-8) (effStderr (-8) (some 0))).1 <
      (sweepBounds (-8) (effStderr (-8) (some 0))).2 := by
  obtain ⟨h1, h2⟩ := stderr_default_substitution (-8) (some 0) (Or.inr rfl)
  refine ⟨?_, h2 (by norm_num)⟩
  rw [h1]
  norm_num

/-! ### Walker trace generator (`generateWalkPlot`, lines 495-507) -/

/-- Model of `plt.subplots(n, 1)` with default squeezing: zero rows raise a
`ValueError` from the grid specification, a single row yields a bare axes
object, and two or more rows yield a one-dimensional array of axes. -/
def subplots (n : ℕ) : Except PyError (Sum Unit (List Unit)) :=
  if n = 0 then .error .valueError
  else if n = 1 then .ok (.inl ())
  else .ok (.inr (List.replicate n ()))

/-- Plot-drawing trace of `generateWalkPlot` after the filter has selected
`n` parameters (lines 495-507): the number of parameter trajectories
drawn, paired with the outcome.  `zip(filter, axes)` raises a `TypeError`
when `axes` is a bare axes object (not iterable); the trailing
`ax.set_xlabel` raises a `NameError` when the loop never ran. -/
def generateWalkPlotDrawn (n : ℕ) : ℕ × Except PyError Unit :=
  match subplots n with
  | .error e => (0, .error e)
  | .ok (.inl _) => (0, .error .typeError)
  | .ok (.inr axs) =>
    if min n axs.length = 0 then (0, .error .nameError)
    else (min n axs.length, .ok ())

/-- C10: selecting exactly one parameter makes `generateWalkPlot` raise a
`TypeError` (the single axes object is iterated as a collection) before any
trajectory is drawn; the function succeeds exactly when two or more
parameters are selected, drawing one trajectory bundle per parameter. -/
theorem walk_plot_single_param (n : ℕ) :
    (n = 1 → generateWalkPlotDrawn n = (0, .error .typeError)) ∧
    (2 ≤ n → generateWalkPlotDrawn n = (n, .ok ())) ∧
    (∀ u, (generateWalkPlotDrawn n).2 = .ok u → 2 ≤ n) := by
  refine ⟨fun h1 => ?_, fun h2 => ?_, fun u hu => ?_⟩
  · subst h1
    simp [generateWalkPlotDrawn, subplots]
  · have hn0 : n ≠ 0 := by omega
    have hn1 : n ≠ 1 := by omega
    simp only [generateWalkPlotDrawn, subplots, if_neg hn0, if_neg hn1]
    rw [List.length_replicate, min_self]
    rw [if_neg (by omega)]
  · by_contra hlt
    push_neg at hlt
    interval_cases n <;> simp_all [generateWalkPlotDrawn, subplots]

/-- Witness for C10 at `n = 1` and `n = 2`. -/
theorem walk_plot_single_param_witness :
    generateWalkPlotDrawn 1 = (0, .error .typeError) ∧
    generateWalkPlotDrawn 2 = (2, .ok ()) := by
  exact ⟨(walk_plot_single_param 1).1 rfl, (walk_plot_single_param 2).2.1 (by norm_num)⟩

/-! ### Histogram binning of `generateCorrelationPlot` (lines 370-377) -/

/-- Mean of a sample, `np.mean`. -/
noncomputable def npMean (x : List ℝ) : ℝ := x.sum / (x.length : ℝ)

/-- Population variance of a sample (`np.std` squared, `ddof = 0`). -/
noncomputable def npVariance (x : List ℝ) : ℝ :=
  ((x.map fun v => (v - npMean x) ^ 2).sum) / (x.length : ℝ)

/-- Standard deviation of a sample, `np.std`. -/
noncomputable def npStd (x : List ℝ) : ℝ := Real.sqrt (npVariance x)

/-- Scott's-rule bin width computed on line 371:
`3.5 * np.std(x) / x.size ** (1 / 3)`. -/
noncomputable def scottWidth (x : List ℝ) : ℝ :=
  3.5 * npStd x / (x.length : ℝ) ^ ((1 : ℝ) / 3)

/-- Model of `np.arange(start, stop, step)`: `⌈(stop - start) / step⌉`
points `start + k * step`; a zero `step` raises `ZeroDivisionError`. -/
noncomputable def arange (start stop step : ℝ) : Except PyError (List ℝ) :=
  if step = 0 then .error .zeroDivisionError
  else .ok ((List.range (⌈(stop - start) / step⌉.toNat)).map
    fun k : ℕ => start + (k : ℝ) * step)

/-- Histogram bin derivation of `generateCorrelationPlot` (lines 370-377)
for one parameter: when no bin count is supplied, bin edges are derived by
Scott's rule with `np.arange(x.min(), x.max() + width, width)`, and the
result is then passed through `int(...)` inside the `try` block —
`int` succeeds on a size-one array and raises `TypeError` otherwise, in
which case the `except TypeError` branch substitutes 50 bins.  `int` of a
(nonnegative) scalar is modelled by the floor. -/
noncomputable def histBinCount (x : List ℝ) (binReq : Option ℝ) :
    Except PyError ℤ :=
  match binReq with
  | some b => .ok ⌊b⌋
  | none =>
    match arange (listMin x) (listMax x + scottWidth x) (scottWidth x) with
    | .error e => .error e
    | .ok es => if es.length = 1 then .ok ⌊es.headI⌋ else .ok 50

theorem headI_mem {α : Type} [Inhabited α] (l : List α) (h : l ≠ []) :
    l.headI ∈ l := by
  cases l with
  | nil => exact absurd rfl h
  | cons a t => exact List.mem_cons_self a t

theorem foldr_min_mem {α : Type} [LinearOrder α] (init : α) (l : List α) :
    l.foldr min init = init ∨ l.foldr min init ∈ l := by
  induction l with
  | nil => exact Or.inl rfl
  | cons a t ih =>
    rcases min_choice a (t.foldr min init) with h | h
    · right; rw [List.foldr_cons, h]; exact List.mem_cons_self a t
    · rcases ih with h2 | h2
      · left; rw [List.foldr_cons, h, h2]
      · right; rw [List.foldr_cons, h]; exact List.mem_cons_of_mem a h2

theorem foldr_max_mem {α : Type} [LinearOrder α] (init : α) (l : List α) :
    l.foldr max init = init ∨ l.foldr max init ∈ l := by
  induction l with
  | nil => exact Or.inl rfl
  | cons a t ih =>
    rcases max_choice a (t.foldr max init) with h | h
    · right; rw [List.foldr_cons, h]; exact List.mem_cons_self a t
    · rcases ih with h2 | h2
      · left; rw [List.foldr_cons, h, h2]
      · right; rw [List.foldr_cons, h]; exact List.mem_cons_of_mem a h2

theorem listMin_mem {α : Type} [LinearOrder α] [Inhabited α] (l : List α)
    (h : l ≠ []) : listMin l ∈ l := by
  rcases foldr_min_mem l.headI l with h2 | h2
  · rw [listMin, h2]; exact headI_mem l h
  · exact h2

theorem listMax_mem {α : Type} [LinearOrder α] [Inhabited α] (l : List α)
    (h : l ≠ []) : listMax l ∈ l := by
  rcases foldr_max_mem l.headI l with h2 | h2
  · rw [listMax, h2]; exact headI_mem l h
  · exact h2

theorem scottWidth_pos (x : List ℝ) (hne : x ≠ [])
    (hlt : listMin x < listMax x) : 0 < scottWidth x := by
  have hn : 0 < x.length := List.length_pos.mpr hne
  have hnR : (0 : ℝ) < (x.length : ℝ) := by exact_mod_cast hn
  have hvar : 0 < npVariance x := by
    have hterm : ∃ v ∈ x, 0 < (v - npMean x) ^ 2 := by
      by_cases hmin : npMean x = listMin x
      · refine ⟨listMax x, listMax_mem x hne, ?_⟩
        have : listMax x - npMean x ≠ 0 := by rw [hmin]; intro hc; linarith
        positivity
      · refine ⟨listMin x, listMin_mem x hne, ?_⟩
        have : listMin x - npMean x ≠ 0 := by
          intro hc
          exact hmin (by linarith)
        positivity
    obtain ⟨v, hv, hvpos⟩ := hterm
    have hsum : (v - npMean x) ^ 2 ≤ ((x.map fun w => (w - npMean x) ^ 2).sum) := by
      apply List.single_le_sum
      · intro y hy
        rcases List.mem_map.mp hy with ⟨w, _, rfl⟩
        positivity
      · exact List.mem_map_of_mem _ hv
    exact div_pos (lt_of_lt_of_le hvpos hsum) hnR
  have hstd : 0 < npStd x := Real.sqrt_pos.mpr hvar
  have hpow : (0 : ℝ) < (x.length : ℝ) ^ ((1 : ℝ) / 3) :=
    Real.rpow_pos_of_pos hnR _
  exact div_pos (by linarith) hpow

theorem scottWidth_eq_zero (x : List ℝ) (hne : x ≠ [])
    (heq : listMin x = listMax x) : scottWidth x = 0 := by
  have hn : 0 < x.length := List.length_pos.mpr hne
  have hnR : (0 : ℝ) < (x.length : ℝ) := by exact_mod_cast hn
  have hall : ∀ v ∈ x, v = listMin x := by
    intro v hv
    have h1 := listMin_le x v hv
    have h2 := le_listMax x v hv
    rw [← heq] at h2
    linarith
  have hsum : x.sum = (x.length : ℝ) * listMin x := by
    rw [List.sum_eq_card_nsmul x (listMin x) hall, nsmul_eq_mul]
  have hmean : npMean x = listMin x := by
    rw [npMean, hsum, mul_div_cancel_left₀ _ (ne_of_gt hnR)]
  have hvar : npVariance x = 0 := by
    rw [npVariance, List.sum_eq_zero, zero_div]
    intro y hy
    rcases List.mem_map.mp hy with ⟨w, hw, rfl⟩
    rw [hmean, hall w hw]
    ring
  rw [scottWidth, npStd, hvar, Real.sqrt_zero, mul_zero, zero_div]

/-- C1 (code behaviour at the failing inputs): for every nonconstant sample
with no explicit bin count, the Scott-rule bin edges are a valid array of
at least two edges, yet `int(...)` of that array raises `TypeError` and the
code always falls back to 50 bins; for a constant sample the derivation
raises `ZeroDivisionError` to the caller (`np.arange` with zero step).
Both contradict the claim that Scott-derived edges are used whenever valid
and that the derivation never raises. -/
theorem scott_rule_defeated (x : List ℝ) (hne : x ≠ []) :
    (listMin x < listMax x → histBinCount x none = .ok 50) ∧
    (listMin x = listMax x → histBinCount x none = .error .zeroDivisionError) := by
  constructor
  · intro hlt
    have hw : 0 < scottWidth x := scottWidth_pos x hne hlt
    have hne0 : scottWidth x ≠ 0 := ne_of_gt hw
    have hlen : (2 : ℤ) ≤ ⌈(listMax x + scottWidth x - listMin x) / scottWidth x⌉ := by
      have h1 : (1 : ℝ) < (listMax x + scottWidth x - listMin x) / scottWidth x := by
        rw [lt_div_iff₀ hw]
        linarith
      have := Int.lt_ceil.mpr (by exact_mod_cast h1 :
        ((1 : ℤ) : ℝ) < (listMax x + scottWidth x - listMin x) / scottWidth x)
      omega
    simp only [histBinCount, arange, if_neg hne0]
    rw [if_neg]
    rw [List.length_map, List.length_range]
    omega
  · intro heq
    have hw : scottWidth x = 0 := scottWidth_eq_zero x hne heq
    simp [histBinCount, arange, hw]

/-- Witness for C1 at the nonconstant sample `[0, 1]` and the constant
sample `[4, 4]`. -/
theorem scott_rule_defeated_witness :
    histBinCount [(0 : ℝ), 1] none = .ok 50 ∧
    histBinCount [(4 : ℝ), 4] none = .error .zeroDivisionError := by
  constructor
  · apply (scott_rule_defeated [(0 : ℝ), 1] (by simp)).1
    have h1 : listMin [(0 : ℝ), 1] = 0 := by
      simp [listMin, List.headI, min_def]
    have h2 : listMax [(0 : ℝ), 1] = 1 := by
      simp [listMax, List.headI, max_def]
    rw [h1, h2]
    norm_num
  · apply (scott_rule_defeated [(4 : ℝ), 4] (by simp)).2
    simp [listMin, listMax, List.headI]

/-! ### Parameter save/restore of `generateChisquareMap` (lines 157-311) -/

/-- One entry of the fitting engine's `lmpars` mapping. -/
structure FitParam where
  name : String
  value : ℚ
  vary : Bool
deriving DecidableEq, Repr

/-- Assignment `params[name].value = v`. -/
def setValue (ps : List FitParam) (n : String) (v : ℚ) : List FitParam :=
  ps.map fun p => if p.name = n then { p with value := v } else p

/-- Assignment `params[name].vary = b`. -/
def setVary (ps : List FitParam) (n : String) (b : Bool) : List FitParam :=
  ps.map fun p => if p.name = n then { p with vary := b } else p

/-- Snapshot of the engine's `result` attribute. -/
structure FitResult where
  resultParams : List FitParam
  resultChisqr : ℚ
deriving DecidableEq, Repr

/-- Observable state of the external fitting engine:
live parameters, last deviance, last fit result. -/
structure Engine where
  lmpars : List FitParam
  chisqr : ℚ
  result : FitResult
deriving DecidableEq, Repr

/-- Effect of `fitter.fit(...)` on the engine: the (arbitrary, abstract)
refit `fitF` maps the current parameters to refitted parameters and a new
deviance, and the `result` attribute is refreshed accordingly. -/
def applyFit (fitF : List FitParam → List FitParam × ℚ) (e : Engine) : Engine :=
  { lmpars := (fitF e.lmpars).1,
    chisqr := (fitF e.lmpars).2,
    result := ⟨(fitF e.lmpars).1, (fitF e.lmpars).2⟩ }

/-- Modelled from the spec: the fitting engine's `updateInfo()` operation
(its body is outside this module) resynchronizes the engine's derived
state from the restored `result` snapshot after a restore; it does not
modify the live parameter values. -/
def updateInfo (e : Engine) : Engine := { e with chisqr := e.result.resultChisqr }

/-- One iteration of the diagonal loop (lines 193-250) for parameter
`name`: take a deep copy of `saved_params`, fix the parameter, sweep it
over `sweep` refitting at each point (the engine's live parameters alias
the swept `params` object), then restore `fitter.lmpars = orig_params`. -/
def diagStep (fitF : List FitParam → List FitParam × ℚ)
    (saved orig : List FitParam) (sweep : List ℚ) (name : String)
    (e : Engine) : Engine :=
  let params0 := setVary saved name false
  let pe := sweep.foldl (fun (pe : List FitParam × Engine) v =>
      let e1 := applyFit fitF { pe.2 with lmpars := setValue pe.1 name v }
      (e1.lmpars, e1)) (params0, e)
  { pe.2 with lmpars := orig }

/-- The diagonal loop of `generateChisquareMap` (lines 193-250). -/
def runDiag (fitF : List FitParam → List FitParam × ℚ)
    (saved orig : List FitParam) (sweeps : String → List ℚ)
    (names : List String) (e : Engine) : Engine :=
  names.foldl (fun e n => diagStep fitF saved orig (sweeps n) n e) e

/-- One iteration of the off-diagonal loop (lines 252-296) for the pair
`(xn, yn)`: deep-copy `orig_params`, fix both parameters, refit on every
grid point, then restore `fitter.lmpars = copy.deepcopy(orig_params)`. -/
def pairStep (fitF : List FitParam → List FitParam × ℚ)
    (orig : List FitParam) (grid : List (ℚ × ℚ)) (xn yn : String)
    (e : Engine) : Engine :=
  let params0 := setVary (setVary orig yn false) xn false
  let pe := grid.foldl (fun (pe : List FitParam × Engine) xy =>
      let e1 := applyFit fitF
        { pe.2 with lmpars := setValue (setValue pe.1 xn xy.1) yn xy.2 }
      (e1.lmpars, e1)) (params0, e)
  { pe.2 with lmpars := orig }

/-- The off-diagonal loop of `generateChisquareMap` (lines 252-296). -/
def runPairs (fitF : List FitParam → List FitParam × ℚ)
    (orig : List FitParam) (grids : String × String → List (ℚ × ℚ))
    (pairs : List (String × String)) (e : Engine) : Engine :=
  pairs.foldl (fun e pr => pairStep fitF orig (grids pr) pr.1 pr.2 e) e

/-- Engine-state trace of a full `generateChisquareMap` call
(lines 157-311): optional initial fit when no `chisqr` attribute exists
yet, snapshots of `result` and `lmpars`, the diagonal sweeps, the pair
sweeps, then `fitter.result = result` and `fitter.updateInfo()`. -/
def generateChisquareMapEngine (fitF : List FitParam → List FitParam × ℚ)
    (hasChisqr : Bool) (sweeps : String → List ℚ) (names : List String)
    (grids : String × String → List (ℚ × ℚ)) (pairs : List (String × String))
    (e : Engine) : Engine :=
  let e0 := if hasChisqr then e else applyFit fitF e
  let result := e0.result
  let orig := e0.lmpars
  let e1 := runDiag fitF orig orig sweeps names e0
  let e2 := runPairs fitF orig grids pairs e1
  updateInfo { e2 with result := result }

/-- The pre-sweep snapshot `orig_params` taken on line 165. -/
def preSweepParams (fitF : List FitParam → List FitParam × ℚ)
    (hasChisqr : Bool) (e : Engine) : List FitParam :=
  (if hasChisqr then e else applyFit fitF e).lmpars

theorem foldl_lmpars_last {α : Type} (f : α → Engine → Engine)
    (orig : List FitParam) (hf : ∀ a e, (f a e).lmpars = orig) :
    ∀ (l : List α) (e : Engine),
      (l.foldl (fun e a => f a e) e).lmpars =
        (if l.isEmpty then e.lmpars else orig) := by
  intro l
  induction l with
  | nil => intro e; simp
  | cons a t ih =>
    intro e
    rw [List.foldl_cons, ih]
    by_cases ht : t.isEmpty <;> simp [ht, hf]

/-- C2: after a full `generateChisquareMap` run — whatever the abstract
refit does, whatever parameters, sweep points and pairs are used — the
fitting engine's live parameter values equal the snapshot taken before the
sweeps exactly; the sweeps' mutations of the live state are not observable
after the call. -/
theorem chisquare_map_restores_params
    (fitF : List FitParam → List FitParam × ℚ) (hasChisqr : Bool)
    (sweeps : String → List ℚ) (names : List String)
    (grids : String × String → List (ℚ × ℚ)) (pairs : List (String × String))
    (e : Engine) :
    (generateChisquareMapEngine fitF hasChisqr sweeps names grids pairs e).lmpars =
      preSweepParams fitF hasChisqr e := by
  unfold generateChisquareMapEngine preSweepParams updateInfo runPairs runDiag
  rw [foldl_lmpars_last (fun pr e => pairStep fitF _ (grids pr) pr.1 pr.2 e) _
    (fun pr e => rfl)]
  by_cases hp : pairs.isEmpty
  · rw [if_pos hp]
    rw [foldl_lmpars_last (fun n e => diagStep fitF _ _ (sweeps n) n e) _
      (fun n e => rfl)]
    by_cases hd : names.isEmpty <;> simp [hd]
  · rw [if_neg hp]

/-! ### Contour confidence thresholds (lines 287-295) -/

/-- The three cumulative-probability levels iterated on line 289, in
source order. -/
def sigmaLevels : List ℚ := [0.997300204, 0.954499736, 0.682689492]

/-- The function handed to `optimize.root` on line 290:
`chifunc = lambda x: chi2.cdf(x, 1) - bound`.  The external scipy
chi-square CDF family is abstracted as `cdf : dof → x → p`; the source
fixes the degrees of freedom to `1`. -/
def chifunc (cdf : ℕ → ℚ → ℚ) (bound x : ℚ) : ℚ := cdf 1 x - bound

/-- The boundary array built on lines 288-293: for each level the
root-finder output `q bound` (standing for
`optimize.root(chifunc, 1).x[0]`) is negated and collected, then a zero
boundary is appended. -/
def contourBounds (q : ℚ → ℚ) : List ℚ :=
  (sigmaLevels.map fun bound => -(q bound)) ++ [0]

/-- Contract of the external root-finder on the code's `chifunc`:
`q b` solves `chifunc cdf b (q b) = 0` at every level used. -/
def IsChifuncRoots (cdf : ℕ → ℚ → ℚ) (q : ℚ → ℚ) : Prop :=
  ∀ b ∈ sigmaLevels, chifunc cdf b (q b) = 0

/-- Refinement target following the spec's words for C3: every threshold
is a quantile of the chi-square CDF with TWO degrees of freedom at its
level, i.e. the chi-square CDF with two degrees of freedom at the
threshold equals the target probability. -/
def IsTwoDofQuantiles (cdf : ℕ → ℚ → ℚ) (q : ℚ → ℚ) : Prop :=
  ∀ b ∈ sigmaLevels, cdf 2 (q b) = b

/-- Toy CDF family used to instantiate the abstract contracts: for each
`df`, the map `x ↦ x / (x + df)` vanishes at `0` and is strictly
increasing on nonnegative inputs, like the chi-square CDF. -/
def cdfToy (df : ℕ) (x : ℚ) : ℚ := x / (x + (df : ℚ))

/-- Exact roots of the code's `chifunc` for the toy family. -/
def qToy (b : ℚ) : ℚ := b / (1 - b)

/-- C3 counterexample: for a CDF family satisfying the shape of the
chi-square family and an exact root-finder satisfying the code's
root-finding contract (roots of `chi2.cdf(x, 1) - bound`), the thresholds
are NOT the two-degrees-of-freedom quantiles the claim asserts. -/
theorem contour_dof_counterexample :
    IsChifuncRoots cdfToy qToy ∧ ¬ IsTwoDofQuantiles cdfToy qToy := by
  constructor
  · intro b hb
    fin_cases hb <;> norm_num [chifunc, cdfToy, qToy]
  · intro h
    have hmem : (0.682689492 : ℚ) ∈ sigmaLevels := by
      simp [sigmaLevels]
    have := h 0.682689492 hmem
    norm_num [cdfToy, qToy] at this

/-- C3 (amended): the deviance-to-confidence thresholds of
`generateChisquareMap` are obtained by root-finding the chi-square CDF
with ONE degree of freedom at the levels 0.997300204, 0.954499736,
0.682689492 — whenever the external root-finder returns roots of the
code's `chifunc`, each threshold inverts the one-degree-of-freedom CDF at
its level, and the boundary array is the three negated thresholds followed
by zero. -/
theorem contour_one_dof_thresholds (cdf : ℕ → ℚ → ℚ) (q : ℚ → ℚ)
    (hq : IsChifuncRoots cdf q) :
    (∀ b ∈ sigmaLevels, cdf 1 (q b) = b) ∧
    contourBounds q =
      [-(q 0.997300204), -(q 0.954499736), -(q 0.682689492), 0] := by
  constructor
  · intro b hb
    have h := hq b hb
    unfold chifunc at h
    linarith
  · rfl

/-- Witness for C3 (amended) at the toy CDF family and its exact roots. -/
theorem contour_one_dof_thresholds_witness :
    cdfToy 1 (qToy 0.682689492) = 0.682689492 ∧
    contourBounds qToy =
      [-(qToy 0.997300204), -(qToy 0.954499736), -(qToy 0.682689492), 0] := by
  have h := contour_one_dof_thresholds cdfToy qToy
    (by intro b hb; fin_cases hb <;> norm_num [chifunc, cdfToy, qToy])
  exact ⟨h.1 0.682689492 (by simp [sigmaLevels]), h.2⟩

/-- C7: assuming the external one-degree-of-freedom chi-square CDF
vanishes at zero and is strictly increasing on nonnegative arguments, and
the root-finder returns nonnegative roots of the code's `chifunc`, the
three negated thresholds are strictly decreasing negative numbers
(3-sigma below 2-sigma below 1-sigma below 0), and the boundary array with
the appended zero is strictly increasing and ends at 0. -/
theorem contour_bounds_ordered (cdf : ℕ → ℚ → ℚ) (q : ℚ → ℚ)
    (hmono : StrictMonoOn (cdf 1) (Set.Ici 0)) (h0 : cdf 1 0 = 0)
    (hpos : ∀ b ∈ sigmaLevels, 0 ≤ q b) (hroots : IsChifuncRoots cdf q) :
    List.Chain' (· < ·) (contourBounds q) ∧
    (∀ t ∈ (contourBounds q).dropLast, t < 0) ∧
    (contourBounds q).getLast? = some 0 := by
  have key : ∀ x y : ℚ, 0 ≤ x → 0 ≤ y → cdf 1 x < cdf 1 y → x < y := by
    intro x y hx hy hlt
    by_contra hc
    push_neg at hc
    rcases eq_or_lt_of_le hc with h | h
    · rw [h] at hlt; exact lt_irrefl _ hlt
    · exact absurd (hmono hy hx h) (by linarith)
  have hm1 : (0.997300204 : ℚ) ∈ sigmaLevels := by simp [sigmaLevels]
  have hm2 : (0.954499736 : ℚ) ∈ sigmaLevels := by simp [sigmaLevels]
  have hm3 : (0.682689492 : ℚ) ∈ sigmaLevels := by simp [sigmaLevels]
  have hr1 : cdf 1 (q 0.997300204) = 0.997300204 := by
    have h := hroots _ hm1; unfold chifunc at h; linarith
  have hr2 : cdf 1 (q 0.954499736) = 0.954499736 := by
    have h := hroots _ hm2; unfold chifunc at h; linarith
  have hr3 : cdf 1 (q 0.682689492) = 0.682689492 := by
    have h := hroots _ hm3; unfold chifunc at h; linarith
  have hq1 : 0 ≤ q 0.997300204 := hpos _ hm1
  have hq2 : 0 ≤ q 0.954499736 := hpos _ hm2
  have hq3 : 0 ≤ q 0.682689492 := hpos _ hm3
  have h3pos : 0 < q 0.682689492 := by
    apply key 0 _ le_rfl hq3
    rw [h0, hr3]
    norm_num
  have h32 : q 0.682689492 < q 0.954499736 := by
    apply key _ _ hq3 hq2
    rw [hr3, hr2]
    norm_num
  have h21 : q 0.954499736 < q 0.997300204 := by
    apply key _ _ hq2 hq1
    rw [hr2, hr1]
    norm_num
  have hlist : contourBounds q =
      [-(q 0.997300204), -(q 0.954499736), -(q 0.682689492), 0] := rfl
  rw [hlist]
  refine ⟨?_, ?_, rfl⟩
  · simp only [List.chain'_cons, List.chain'_singleton, and_true]
    refine ⟨by linarith, by linarith, by linarith⟩
  · intro t ht
    have hdl : ([-(q 0.997300204), -(q 0.954499736), -(q 0.682689492),
        (0 : ℚ)]).dropLast =
        [-(q 0.997300204), -(q 0.954499736), -(q 0.682689492)] := rfl
    rw [hdl] at ht
    simp only [List.mem_cons, List.not_mem_nil, or_false] at ht
    rcases ht with rfl | rfl | rfl <;> linarith

/-- Witness for C7: the toy CDF family instantiates all the contracts. -/
theorem contour_bounds_ordered_witness :
    List.Chain' (· < ·) (contourBounds qToy) ∧
    (contourBounds qToy).getLast? = some 0 := by
  have hmono : StrictMonoOn (cdfToy 1) (Set.Ici (0 : ℚ)) := by
    intro a ha b hb hab
    have ha' : (0 : ℚ) ≤ a := Set.mem_Ici.mp ha
    have hb' : (0 : ℚ) ≤ b := Set.mem_Ici.mp hb
    simp only [cdfToy, Nat.cast_one]
    rw [div_lt_div_iff₀ (by linarith) (by linarith)]
    nlinarith
  have h := contour_bounds_ordered cdfToy qToy hmono
    (by norm_num [cdfToy])
    (by intro b hb; fin_cases hb <;> norm_num [qToy])
    (by intro b hb; fin_cases hb <;> norm_num [chifunc, cdfToy, qToy])
  exact ⟨h.1, h.2.2⟩

/-! ### Percentile credible interval of `generateCorrelationPlot`
(lines 380-388) -/


/-- Linear-interpolation evaluation on an ascending-sorted sample at
virtual index `h`: `xs[i] + (h - i) * (xs[i + 1] - xs[i])` with
`i = floor h` and the upper index clipped to the last element, as in
`np.percentile` with the default interpolation. -/
def npInterp (xs : List ℚ) (h : ℚ) : ℚ :=
  xs.getD (⌊h⌋).toNat 0 +
    (h - (((⌊h⌋).toNat : ℕ) : ℚ)) *
      (xs.getD (min ((⌊h⌋).toNat + 1) (xs.length - 1)) 0 -
        xs.getD (⌊h⌋).toNat 0)

/-- Model of `np.percentile(x, q)`: evaluate the ascending-sorted sample
at the virtual index `q / 100 * (n - 1)`. -/
def npPercentile (x : List ℚ) (q : ℚ) : ℚ :=
  npInterp (x.insertionSort (· ≤ ·))
    (q / 100 * (((x.insertionSort (· ≤ ·)).length : ℚ) - 1))

/-- The percentiles computed on lines 380-381: `q = [15.87, 50, 84.13]`,
`q16, q50, q84 = np.percentile(x, q)`. -/
def correlationPercentiles (x : List ℚ) : ℚ × ℚ × ℚ :=
  (npPercentile x 15.87, npPercentile x 50, npPercentile x 84.13)

/-- Refinement target following the spec's words for C9: the 16th, 50th
and 84th percentiles of the flattened sample. -/
def specPercentiles (x : List ℚ) : ℚ × ℚ × ℚ :=
  (npPercentile x 16, npPercentile x 50, npPercentile x 84)

/-- The reported center and asymmetric errors (lines 387-388): the center
`q50` with upward error `np.abs(q84 - q50)` and downward error
`np.abs(q50 - q16)`. -/
def reportedInterval (x : List ℚ) : ℚ × ℚ × ℚ :=
  ((correlationPercentiles x).2.1,
   |(correlationPercentiles x).2.1 - (correlationPercentiles x).1|,
   |(correlationPercentiles x).2.2 - (correlationPercentiles x).2.1|)

theorem sorted_getD_mono (xs : List ℚ) (hs : List.Sorted (· ≤ ·) xs)
    {a b : ℕ} (hab : a ≤ b) (hb : b < xs.length) :
    xs.getD a 0 ≤ xs.getD b 0 := by
  have ha : a < xs.length := lt_of_le_of_lt hab hb
  rw [List.getD_eq_getElem _ _ ha, List.getD_eq_getElem _ _ hb]
  rcases eq_or_lt_of_le hab with rfl | hlt
  · exact le_refl _
  · exact hs.rel_get_of_lt hlt

theorem npInterp_mono (xs : List ℚ) (hs : List.Sorted (· ≤ ·) xs)
    (hne : xs ≠ []) {h h' : ℚ} (h0 : 0 ≤ h) (hhh : h ≤ h')
    (hlast : h' ≤ (xs.length : ℚ) - 1) :
    npInterp xs h ≤ npInterp xs h' := by
  have hn : 0 < xs.length := List.length_pos.mpr hne
  have h0' : 0 ≤ h' := le_trans h0 hhh
  have hcast : (((⌊h⌋).toNat : ℕ) : ℚ) = ((⌊h⌋ : ℤ) : ℚ) := by
    rw [← Int.cast_natCast, Int.toNat_of_nonneg (Int.floor_nonneg.mpr h0)]
  have hcast' : (((⌊h'⌋).toNat : ℕ) : ℚ) = ((⌊h'⌋ : ℤ) : ℚ) := by
    rw [← Int.cast_natCast, Int.toNat_of_nonneg (Int.floor_nonneg.mpr h0')]
  have hfl : (((⌊h⌋).toNat : ℕ) : ℚ) ≤ h := by
    rw [hcast]
    exact Int.floor_le h
  have hfl' : (((⌊h'⌋).toNat : ℕ) : ℚ) ≤ h' := by
    rw [hcast']
    exact Int.floor_le h'
  have hfu : h < (((⌊h⌋).toNat : ℕ) : ℚ) + 1 := by
    rw [hcast]
    exact Int.lt_floor_add_one h
  have hii : (⌊h⌋).toNat ≤ (⌊h'⌋).toNat :=
    Int.toNat_le_toNat (Int.floor_le_floor hhh)
  have hi'le : (⌊h'⌋).toNat + 1 ≤ xs.length := by
    have h1 : (((⌊h'⌋).toNat : ℕ) : ℚ) ≤ (xs.length : ℚ) - 1 :=
      le_trans hfl' hlast
    have h2 : (((⌊h'⌋).toNat : ℕ) : ℚ) + 1 ≤ (xs.length : ℚ) := by linarith
    exact_mod_cast h2
  have hile : (⌊h⌋).toNat + 1 ≤ xs.length := by omega
  have hlo_hi : xs.getD (⌊h⌋).toNat 0 ≤
      xs.getD (min ((⌊h⌋).toNat + 1) (xs.length - 1)) 0 := by
    apply sorted_getD_mono xs hs (by omega) (by omega)
  have hlo_hi' : xs.getD (⌊h'⌋).toNat 0 ≤
      xs.getD (min ((⌊h'⌋).toNat + 1) (xs.length - 1)) 0 := by
    apply sorted_getD_mono xs hs (by omega) (by omega)
  unfold npInterp
  rcases eq_or_lt_of_le hii with heq | hlt
  · rw [heq]
    rw [heq] at hfl hfu
    have hmul : (h - (((⌊h'⌋).toNat : ℕ) : ℚ)) *
        (xs.getD (min ((⌊h'⌋).toNat + 1) (xs.length - 1)) 0 -
          xs.getD (⌊h'⌋).toNat 0) ≤
        (h' - (((⌊h'⌋).toNat : ℕ) : ℚ)) *
        (xs.getD (min ((⌊h'⌋).toNat + 1) (xs.length - 1)) 0 -
          xs.getD (⌊h'⌋).toNat 0) := by
      apply mul_le_mul_of_nonneg_right (by linarith) (by linarith [hlo_hi'])
    linarith
  · have hstep1 : xs.getD (⌊h⌋).toNat 0 +
        (h - (((⌊h⌋).toNat : ℕ) : ℚ)) *
          (xs.getD (min ((⌊h⌋).toNat + 1) (xs.length - 1)) 0 -
            xs.getD (⌊h⌋).toNat 0) ≤
        xs.getD (min ((⌊h⌋).toNat + 1) (xs.length - 1)) 0 := by
      nlinarith [hlo_hi, hfu, hfl]
    have hstep2 : xs.getD (min ((⌊h⌋).toNat + 1) (xs.length - 1)) 0 ≤
        xs.getD (⌊h'⌋).toNat 0 := by
      apply sorted_getD_mono xs hs (by omega) (by omega)
    have hstep3 : xs.getD (⌊h'⌋).toNat 0 ≤ xs.getD (⌊h'⌋).toNat 0 +
        (h' - (((⌊h'⌋).toNat : ℕ) : ℚ)) *
          (xs.getD (min ((⌊h'⌋).toNat + 1) (xs.length - 1)) 0 -
            xs.getD (⌊h'⌋).toNat 0) := by
      nlinarith [hlo_hi', hfl']
    linarith

theorem npPercentile_mono (x : List ℚ) (hne : x ≠ []) {q1 q2 : ℚ}
    (h0 : 0 ≤ q1) (h12 : q1 ≤ q2) (h100 : q2 ≤ 100) :
    npPercentile x q1 ≤ npPercentile x q2 := by
  have hsorted : List.Sorted (· ≤ ·) (x.insertionSort (· ≤ ·)) :=
    List.sorted_insertionSort _ x
  have hlen : (x.insertionSort (· ≤ ·)).length = x.length :=
    List.length_insertionSort _ x
  have hxpos : 0 < x.length := List.length_pos.mpr hne
  have hne' : x.insertionSort (· ≤ ·) ≠ [] := by
    intro hc
    rw [hc] at hlen
    simp at hlen
    omega
  have hn1 : 1 ≤ (x.insertionSort (· ≤ ·)).length := by omega
  have hnn : (0 : ℚ) ≤ ((x.insertionSort (· ≤ ·)).length : ℚ) - 1 := by
    have : (1 : ℚ) ≤ ((x.insertionSort (· ≤ ·)).length : ℚ) := by
      exact_mod_cast hn1
    linarith
  apply npInterp_mono _ hsorted hne'
  · exact mul_nonneg (div_nonneg h0 (by norm_num)) hnn
  · gcongr
  · have hq : q2 / 100 ≤ 1 := (div_le_one (by norm_num)).mpr h100
    calc q2 / 100 * (((x.insertionSort (· ≤ ·)).length : ℚ) - 1) ≤
        1 * (((x.insertionSort (· ≤ ·)).length : ℚ) - 1) :=
          mul_le_mul_of_nonneg_right hq hnn
      _ = ((x.insertionSort (· ≤ ·)).length : ℚ) - 1 := one_mul _

/-- C9 counterexample: on the two-point sample `[0, 100]`, the code's
percentiles `[15.87, 50, 84.13]` differ from the claimed 16th/50th/84th
percentiles (the lower percentile evaluates to `15.87`, not `16`). -/
theorem percentile_16_counterexample :
    specPercentiles [0, 100] ≠ correlationPercentiles [0, 100] := by
  intro hc
  have h1 : npPercentile [0, 100] 16 = npPercentile [0, 100] 15.87 :=
    congrArg Prod.fst hc
  have e1 : npPercentile [0, 100] 16 = 16 := by
    norm_num [npPercentile, npInterp, List.insertionSort, List.orderedInsert]
  have e2 : npPercentile [0, 100] 15.87 = 15.87 := by
    norm_num [npPercentile, npInterp, List.insertionSort, List.orderedInsert]
  rw [e1, e2] at h1
  norm_num at h1

/-- C9 (amended): for every nonempty flattened sample,
`generateCorrelationPlot` computes the 15.87th, 50th and 84.13th
percentiles; they are ordered, and they define the reported asymmetric
credible interval: center the 50th percentile, lower error the 50th minus
the 15.87th percentile, upper error the 84.13th minus the 50th percentile
(the absolute values the code applies are redundant). -/
theorem percentile_interval (x : List ℚ) (hne : x ≠ []) :
    correlationPercentiles x =
      (npPercentile x 15.87, npPercentile x 50, npPercentile x 84.13) ∧
    npPercentile x 15.87 ≤ npPercentile x 50 ∧
    npPercentile x 50 ≤ npPercentile x 84.13 ∧
    reportedInterval x = (npPercentile x 50,
      npPercentile x 50 - npPercentile x 15.87,
      npPercentile x 84.13 - npPercentile x 50) := by
  have h1 : npPercentile x 15.87 ≤ npPercentile x 50 :=
    npPercentile_mono x hne (by norm_num) (by norm_num) (by norm_num)
  have h2 : npPercentile x 50 ≤ npPercentile x 84.13 :=
    npPercentile_mono x hne (by norm_num) (by norm_num) (by norm_num)
  refine ⟨rfl, h1, h2, ?_⟩
  unfold reportedInterval correlationPercentiles
  simp only [Prod.mk.injEq]
  refine ⟨by trivial, ?_, ?_⟩
  · exact abs_of_nonneg (by linarith)
  · exact abs_of_nonneg (by linarith)

/-- Witness for C9 (amended) at the sample `[0, 100]`. -/
theorem percentile_interval_witness :
    npPercentile [0, 100] 15.87 ≤ npPercentile [0, 100] 50 ∧
    reportedInterval [0, 100] = (npPercentile [0, 100] 50,
      npPercentile [0, 100] 50 - npPercentile [0, 100] 15.87,
      npPercentile [0, 100] 84.13 - npPercentile [0, 100] 50) := by
  have h := percentile_interval [0, 100] (by simp)
  exact ⟨h.2.1, h.2.2.2⟩

/-! ### Highest-density-region thresholds of `generateCorrelationPlot`
(lines 427-442) -/

/-- Normalization of the flattened 2D histogram (line 427):
`H = (H - H.min()) / (H.max() - H.min())`. -/
noncomputable def normalizeH (H : List ℝ) : List ℝ :=
  H.map fun v => (v - listMin H) / (listMax H - listMin H)

/-- Descending sort of the flattened densities (lines 429-431):
`inds = np.argsort(Hflat)[::-1]; Hflat = Hflat[inds]`. -/
noncomputable def sortDesc (l : List ℝ) : List ℝ := l.insertionSort (· ≥ ·)

/-- Cumulative sums, `np.cumsum` (line 432). -/
noncomputable def cumsum (l : List ℝ) : List ℝ := (l.scanl (· + ·) 0).tail

/-- The cumulative-mass levels of line 434:
`1.0 - np.exp(-0.5 * np.arange(1, 3.1, 1) ** 2)` at `k = 1, 2, 3`. -/
noncomputable def hdrLevel (k : ℕ) : ℝ := 1 - Real.exp (-(0.5) * (k : ℝ) ^ 2)

/-- Threshold selection for one level (lines 436-440):
`V[i] = Hflat[sm <= v0][-1]`, with the bare `except` substituting
`Hflat[0]` when the selection is empty. -/
noncomputable def pickThreshold (Hflat sm : List ℝ) (v0 : ℝ) : ℝ :=
  match ((Hflat.zip sm).filter fun p => decide (p.2 ≤ v0)).getLast? with
  | some p => p.1
  | none => Hflat.headI

/-- The three highest-density-region density thresholds of one 2D
histogram (lines 427-440): normalize the grid, sort descending, normalize
the cumulative mass by its total, and pick the threshold at each level. -/
noncomputable def hdrThresholds (H : List ℝ) : List ℝ :=
  [hdrLevel 1, hdrLevel 2, hdrLevel 3].map
    (pickThreshold (sortDesc (normalizeH H))
      ((cumsum (sortDesc (normalizeH H))).map
        fun s => s / (cumsum (sortDesc (normalizeH H))).getLastI))

theorem getLast?_cons_eq {α : Type} (a : α) (l : List α) :
    (a :: l).getLast? = some (l.getLast?.getD a) := by
  induction l generalizing a with
  | nil => simp
  | cons b t ih =>
    rw [List.getLast?_cons_cons, ih b]
    simp

theorem mem_of_getLast?_eq {α : Type} {l : List α} {a : α}
    (h : l.getLast? = some a) : a ∈ l := by
  induction l with
  | nil => simp at h
  | cons b t ih =>
    rw [getLast?_cons_eq] at h
    injection h with h
    cases ht : t.getLast? with
    | none =>
      rw [ht] at h
      simp at h
      subst h
      exact List.mem_cons_self _ _
    | some c =>
      rw [ht] at h
      simp at h
      subst h
      exact List.mem_cons_of_mem _ (ih ht)

theorem filter_le_nonempty_mono (zs : List (ℝ × ℝ)) {v v' : ℝ} (hvv : v ≤ v')
    (h : (zs.filter fun p => decide (p.2 ≤ v)) ≠ []) :
    (zs.filter fun p => decide (p.2 ≤ v')) ≠ [] := by
  obtain ⟨p, hp⟩ := List.exists_mem_of_ne_nil _ h
  have hmem := List.mem_filter.mp hp
  have hle : p.2 ≤ v := by
    have := hmem.2
    simpa using this
  apply List.ne_nil_of_mem (a := p)
  exact List.mem_filter.mpr ⟨hmem.1, by simp; linarith⟩

theorem filter_getLast_anti {v v' : ℝ} (hvv : v ≤ v') :
    ∀ (zs : List (ℝ × ℝ)), ((zs.map Prod.fst).Pairwise (· ≥ ·)) →
    ∀ p p', (zs.filter fun r => decide (r.2 ≤ v)).getLast? = some p →
      (zs.filter fun r => decide (r.2 ≤ v')).getLast? = some p' →
      p'.1 ≤ p.1 := by
  intro zs
  induction zs with
  | nil =>
    intro _ p p' hp _
    simp at hp
  | cons z t ih =>
    intro hpw p p' hp hp'
    rw [List.map_cons, List.pairwise_cons] at hpw
    obtain ⟨hz, hpwt⟩ := hpw
    by_cases h1 : z.2 ≤ v
    · have h2 : z.2 ≤ v' := le_trans h1 hvv
      rw [List.filter_cons_of_pos (by simpa using h1)] at hp
      rw [List.filter_cons_of_pos (by simpa using h2)] at hp'
      rw [getLast?_cons_eq] at hp hp'
      injection hp with hp
      injection hp' with hp'
      cases hft : (t.filter fun r => decide (r.2 ≤ v)).getLast? with
      | some pt =>
        cases hft' : (t.filter fun r => decide (r.2 ≤ v')).getLast? with
        | some pt' =>
          rw [hft] at hp
          rw [hft'] at hp'
          simp at hp hp'
          subst hp
          subst hp'
          exact ih hpwt pt pt' hft hft'
        | none =>
          exfalso
          have hne : (t.filter fun r => decide (r.2 ≤ v)) ≠ [] := by
            intro hc
            rw [hc] at hft
            simp at hft
          exact filter_le_nonempty_mono t hvv hne
            (List.getLast?_eq_none_iff.mp hft')
      | none =>
        rw [hft] at hp
        simp at hp
        subst hp
        cases hft' : (t.filter fun r => decide (r.2 ≤ v')).getLast? with
        | none =>
          rw [hft'] at hp'
          simp at hp'
          subst hp'
          exact le_refl _
        | some pt' =>
          rw [hft'] at hp'
          simp at hp'
          subst hp'
          have hmem : pt' ∈ t :=
            List.mem_of_mem_filter (mem_of_getLast?_eq hft')
          exact hz pt'.1 (List.mem_map_of_mem _ hmem)
    · by_cases h2 : z.2 ≤ v'
      · rw [List.filter_cons_of_neg (by simpa using h1)] at hp
        rw [List.filter_cons_of_pos (by simpa using h2)] at hp'
        rw [getLast?_cons_eq] at hp'
        injection hp' with hp'
        cases hft' : (t.filter fun r => decide (r.2 ≤ v')).getLast? with
        | none =>
          exfalso
          have hne : (t.filter fun r => decide (r.2 ≤ v)) ≠ [] := by
            intro hc
            rw [hc] at hp
            simp at hp
          exact filter_le_nonempty_mono t hvv hne
            (List.getLast?_eq_none_iff.mp hft')
        | some pt' =>
          rw [hft'] at hp'
          simp at hp'
          subst hp'
          exact ih hpwt p pt' hp hft'
      · rw [List.filter_cons_of_neg (by simpa using h1)] at hp
        rw [List.filter_cons_of_neg (by simpa using h2)] at hp'
        exact ih hpwt p p' hp hp'

theorem pickThreshold_anti (Hflat sm : List ℝ)
    (hpw : Hflat.Pairwise (· ≥ ·)) (hlen : Hflat.length ≤ sm.length)
    {v v' : ℝ} (hvv : v ≤ v') :
    pickThreshold Hflat sm v' ≤ pickThreshold Hflat sm v := by
  have hfst : (Hflat.zip sm).map Prod.fst = Hflat := List.map_fst_zip _ _ hlen
  have hpw' : ((Hflat.zip sm).map Prod.fst).Pairwise (· ≥ ·) := by
    rw [hfst]; exact hpw
  unfold pickThreshold
  cases hC : ((Hflat.zip sm).filter fun p => decide (p.2 ≤ v)).getLast? with
  | some p =>
    cases hC' : ((Hflat.zip sm).filter fun p => decide (p.2 ≤ v')).getLast? with
    | some p' => exact filter_getLast_anti hvv _ hpw' p p' hC hC'
    | none =>
      exfalso
      have hne : ((Hflat.zip sm).filter fun p => decide (p.2 ≤ v)) ≠ [] := by
        intro hc
        rw [hc] at hC
        simp at hC
      exact filter_le_nonempty_mono _ hvv hne
        (List.getLast?_eq_none_iff.mp hC')
  | none =>
    cases hC' : ((Hflat.zip sm).filter fun p => decide (p.2 ≤ v')).getLast? with
    | none => exact le_refl _
    | some p' =>
      have hmem : p' ∈ Hflat.zip sm :=
        List.mem_of_mem_filter (mem_of_getLast?_eq hC')
      have hmem1 : p'.1 ∈ Hflat := by
        rw [← hfst]
        exact List.mem_map_of_mem _ hmem
      cases hH : Hflat with
      | nil => rw [hH] at hmem1; simp at hmem1
      | cons a t =>
        rw [hH] at hmem1 hpw
        rw [List.pairwise_cons] at hpw
        simp only [List.headI]
        rcases List.mem_cons.mp hmem1 with h | h
        · rw [h]
        · exact hpw.1 _ h

/-- C8: for every nonempty, nonconstant flattened 2D histogram, the three
highest-density-region density thresholds derived at the cumulative-mass
levels `1 - exp(-0.5 * k^2)` for `k = 1, 2, 3` are non-increasing in `k`,
and each is at most the maximum density of the normalized grid. -/
theorem hdr_thresholds_ordered (H : List ℝ) (hne : H ≠ [])
    (hlt : listMin H < listMax H) :
    List.Chain' (· ≥ ·) (hdrThresholds H) ∧
    ∀ a ∈ hdrThresholds H, a ≤ listMax (normalizeH H) := by
  have hNne : normalizeH H ≠ [] := by
    intro hc
    exact hne (List.map_eq_nil_iff.mp hc)
  have hFs0 : List.Sorted (· ≥ ·) (sortDesc (normalizeH H)) :=
    List.sorted_insertionSort _ _
  have hFs : (sortDesc (normalizeH H)).Pairwise (· ≥ ·) := hFs0
  have hFne : sortDesc (normalizeH H) ≠ [] := by
    intro hc
    have := congrArg List.length hc
    rw [sortDesc, List.length_insertionSort] at this
    simp at this
    exact hNne this
  have hlen : (sortDesc (normalizeH H)).length ≤
      ((cumsum (sortDesc (normalizeH H))).map
        fun s => s / (cumsum (sortDesc (normalizeH H))).getLastI).length := by
    rw [List.length_map, cumsum, List.length_tail, List.length_scanl]
    omega
  have hlv12 : hdrLevel 1 ≤ hdrLevel 2 := by
    unfold hdrLevel
    have hexp : Real.exp (-(0.5) * (2 : ℝ) ^ 2) ≤
        Real.exp (-(0.5) * (1 : ℝ) ^ 2) := by
      apply Real.exp_le_exp.mpr
      norm_num
    push_cast
    linarith
  have hlv23 : hdrLevel 2 ≤ hdrLevel 3 := by
    unfold hdrLevel
    have hexp : Real.exp (-(0.5) * (3 : ℝ) ^ 2) ≤
        Real.exp (-(0.5) * (2 : ℝ) ^ 2) := by
      apply Real.exp_le_exp.mpr
      norm_num
    push_cast
    linarith
  have hkey : ∀ v, pickThreshold (sortDesc (normalizeH H))
      ((cumsum (sortDesc (normalizeH H))).map
        fun s => s / (cumsum (sortDesc (normalizeH H))).getLastI) v ≤
      listMax (normalizeH H) := by
    intro v
    unfold pickThreshold
    cases hC : (((sortDesc (normalizeH H)).zip
        ((cumsum (sortDesc (normalizeH H))).map
          fun s => s / (cumsum (sortDesc (normalizeH H))).getLastI)).filter
        fun p => decide (p.2 ≤ v)).getLast? with
    | some p =>
      have hm : p ∈ (sortDesc (normalizeH H)).zip _ :=
        List.mem_of_mem_filter (mem_of_getLast?_eq hC)
      have hm1 : p.1 ∈ sortDesc (normalizeH H) := by
        rw [← List.map_fst_zip (sortDesc (normalizeH H))
          ((cumsum (sortDesc (normalizeH H))).map
            fun s => s / (cumsum (sortDesc (normalizeH H))).getLastI) hlen]
        exact List.mem_map_of_mem _ hm
      have hm2 : p.1 ∈ normalizeH H := (List.mem_insertionSort _).mp hm1
      exact le_listMax _ _ hm2
    | none =>
      have hm1 : (sortDesc (normalizeH H)).headI ∈ sortDesc (normalizeH H) :=
        headI_mem _ hFne
      have hm2 : (sortDesc (normalizeH H)).headI ∈ normalizeH H :=
        (List.mem_insertionSort _).mp hm1
      exact le_listMax _ _ hm2
  constructor
  · have h12 := pickThreshold_anti _ _ hFs hlen hlv12
    have h23 := pickThreshold_anti _ _ hFs hlen hlv23
    exact List.chain'_cons.mpr ⟨h12,
      List.chain'_cons.mpr ⟨h23, List.chain'_singleton _⟩⟩
  · intro a ha
    unfold hdrThresholds at ha
    simp only [List.map_cons, List.map_nil, List.mem_cons,
      List.not_mem_nil, or_false] at ha
    rcases ha with rfl | rfl | rfl <;> exact hkey _

/-- Witness for C8 at the histogram `[2, 0]`. -/
theorem hdr_thresholds_ordered_witness :
    List.Chain' (· ≥ ·) (hdrThresholds [2, 0]) ∧
    ∀ a ∈ hdrThresholds [2, 0], a ≤ listMax (normalizeH [2, 0]) := by
  apply hdr_thresholds_ordered [2, 0] (by simp)
  have h1 : listMin [(2 : ℝ), 0] = 0 := by
    simp [listMin, List.headI, min_def]
  have h2 : listMax [(2 : ℝ), 0] = 2 := by
    simp [listMax, List.headI, max_def]
  rw [h1, h2]
  norm_num
